import Mathlib

/-!
# Verification of the conversation-index core (`hive-agents/claude-agent-mobile`)

Shallow embedding of the first source module in `src/unnamed/part_000`
(conversation cache, refresh coordinator, watch/debounce layer, directory
browser with root clamp, session loader).  Filesystem effects are modelled
explicitly: directory listings, stat results and file contents are data,
where a `none` marks the corresponding syscall throwing (every `catch` in the
source maps to the `none` branch here).  JavaScript strings become `String`,
`number` timestamps become `Int`, truthiness of a string is `≠ ""`, and
`JSON.stringify` output carried inside a record is kept as an uninterpreted
`String` field.  `Map` (insertion ordered, `set` keeps the original slot of an
existing key) is modelled as an association list with exactly those semantics.
-/

namespace CCMobile

/-! ## String helpers (structural re-implementations of the JS operations used,
so that concrete witnesses reduce inside the kernel) -/

/-- `needle` begins `s` (JS `String.prototype.startsWith`). -/
def strStartsWith (s pre : String) : Bool :=
  pre.data.isPrefixOf s.data

/-- `needle` ends `s` (JS `String.prototype.endsWith`). -/
def strEndsWith (s suf : String) : Bool :=
  suf.data.isSuffixOf s.data

/-- Drop the last `n` characters (used for `name.replace(/\.jsonl$/, '')`). -/
def strDropRight (s : String) (n : Nat) : String :=
  String.mk (s.data.take (s.data.length - n))

/-- First `n` characters (JS `String.prototype.slice(0, n)`). -/
def strTake (s : String) (n : Nat) : String :=
  String.mk (s.data.take n)

/-- JS whitespace test for the characters relevant to `trim`. -/
def isWS (c : Char) : Bool :=
  c = ' ' || c = '\t' || c = '\n' || c = '\r'

/-- JS `String.prototype.trim`. -/
def trimStr (s : String) : String :=
  String.mk (((s.data.dropWhile isWS).reverse.dropWhile isWS).reverse)

/-- `path.join(a, b)` for the well-formed segment arguments used by the source. -/
def pathJoin (a b : String) : String :=
  a ++ "/" ++ b

/-! ## POSIX path resolution (`path.resolve`, `path.dirname`)

Only absolute, `/`-separated paths occur after resolution; `path.resolve`
normalises `.`/`..` segments and prefixes the working directory for relative
inputs. -/

/-- Split on `/` keeping non-empty components. -/
def splitPathAux : List Char → List Char → List String
  | [], cur => [String.mk cur.reverse]
  | '/' :: rest, cur => String.mk cur.reverse :: splitPathAux rest []
  | ch :: rest, cur => splitPathAux rest (ch :: cur)

def splitPath (p : String) : List String :=
  (splitPathAux p.data []).filter (fun c => c ≠ "")

/-- Resolve `.` and `..` components against the root, as `path.resolve` does. -/
def normalizeComps (comps : List String) : List String :=
  comps.foldl
    (fun acc c =>
      if c = "." then acc
      else if c = ".." then acc.dropLast
      else acc ++ [c]) []

/-- `path.resolve(p)` with working directory `cwd` (an absolute path). -/
def resolvePath (cwd p : String) : String :=
  let full := if strStartsWith p "/" then p else cwd ++ "/" ++ p
  "/" ++ String.intercalate "/" (normalizeComps (splitPath full))

/-- `path.dirname` for an absolute normalised path. -/
def dirname (p : String) : String :=
  match (splitPath p).dropLast with
  | [] => "/"
  | cs => "/" ++ String.intercalate "/" cs

/-! ## Public data model (exported TS types) -/

structure ConversationSummary where
  sessionId : String
  project : String
  firstPrompt : String
  updatedAt : Int
deriving Repr, DecidableEq

structure DirectoryListing where
  path : String
  parent : Option String
  entries : List String
deriving Repr, DecidableEq

/-- `CachedConversation = ConversationSummary & {filePath, mtimeMs, size, projectDir}`. -/
structure CachedConversation where
  sessionId : String
  project : String
  firstPrompt : String
  updatedAt : Int
  filePath : String
  mtimeMs : Int
  size : Int
  projectDir : String
deriving Repr, DecidableEq

def toSummary (c : CachedConversation) : ConversationSummary :=
  { sessionId := c.sessionId, project := c.project,
    firstPrompt := c.firstPrompt, updatedAt := c.updatedAt }

/-! ## Insertion-ordered map (JS `Map<string, ·>`): `set` overwrites the value
of an existing key in place, otherwise appends; iteration order is the list
order. -/

def mapSet (m : List (String × α)) (k : String) (v : α) : List (String × α) :=
  match m with
  | [] => [(k, v)]
  | (k', v') :: rest => if k' = k then (k', v) :: rest else (k', v') :: mapSet rest k v

def mapGet (m : List (String × α)) (k : String) : Option α :=
  match m with
  | [] => none
  | (k', v') :: rest => if k' = k then some v' else mapGet rest k

def mapValues (m : List (String × α)) : List α :=
  m.map Prod.snd

abbrev CacheMap := List (String × CachedConversation)

/-! ## Transcript records (line-delimited JSON)

One parsed JSON value per non-blank line.  A content block is any JS object
with a `type` tag; `JSON.stringify` results that the source merely forwards
(tool inputs, non-string tool results, unknown blocks) are carried as
uninterpreted strings. -/

inductive RawBlock where
  /-- `{type:'text', text?}`; `text` may be absent / not a string (`none`). -/
  | text (text : Option String)
  /-- `{type:'tool_use', name?, input?}` with `JSON.stringify(input ?? \x7b\x7d, null, 2)` precomputed. -/
  | toolUse (name : Option String) (inputJson : String)
  /-- `{type:'tool_result', content}` where `content` is a string. -/
  | toolResultStr (s : String)
  /-- `{type:'tool_result', content}` where `content` is not a string; carries `JSON.stringify(content ?? \x7b\x7d, null, 2)`. -/
  | toolResultOther (json : String)
  | thinking (text : Option String)
  | analysis (text : Option String)
  | reasoningBlk (text : Option String)
  /-- any other block shape; carries `JSON.stringify(block ?? \x7b\x7d, null, 2)`. -/
  | otherBlk (json : String)
deriving Repr, DecidableEq

/-- The JS value found in a record's `message.content` slot. -/
inductive Content where
  /-- `null` / `undefined` / another falsy non-string value. -/
  | null
  | str (s : String)
  | arr (blocks : List RawBlock)
  /-- a truthy value that is neither a string nor an array. -/
  | otherVal
deriving Repr, DecidableEq

structure MessageObj where
  /-- `message.role`; `none` = absent, `some ""` = falsy string. -/
  role : Option String
  content : Content
  /-- `message.model` (assistant records). -/
  model : Option String
  /-- `message.id`. -/
  id : Option String
deriving Repr, DecidableEq

structure SessionRecord where
  /-- `record.type`; `none` when absent or the parsed line is not an object. -/
  type : Option String
  /-- truthiness of `record.isMeta`. -/
  isMeta : Bool
  /-- `record.cwd` when it is a string. -/
  cwd : Option String
  uuid : Option String
  timestamp : Option String
  message : Option MessageObj
  /-- truthiness of `record.thinkingMetadata?.disabled`. -/
  thinkingDisabled : Bool
deriving Repr, DecidableEq

/-- One raw line of a `*.jsonl` file, as seen after `trim()`. -/
inductive RawLine where
  /-- whitespace-only line. -/
  | blank
  /-- `JSON.parse` throws on this line. -/
  | malformed
  | record (r : SessionRecord)
deriving Repr, DecidableEq

/-- `extractText`: concatenate the `text` of `type === 'text'` blocks. -/
def extractText (c : Content) : String :=
  match c with
  | .null => ""
  | .str s => s
  | .arr bs =>
      String.join (bs.filterMap (fun b =>
        match b with
        | .text t => some (t.getD "")
        | _ => none))
  | .otherVal => ""

/-! ## Metadata extractor (`readSessionMetadata`, source lines 160–195)

Streams the file line by line; a blank line is skipped before `linesRead`
increments, a malformed line increments `linesRead` but `continue`s past the
200-line check, and the loop stops once both fields are found or 200 parsed
lines were consumed.  An I/O error mid-stream simply truncates the line list,
returning whatever was found so far. -/

def contentOfRecord (r : SessionRecord) : Content :=
  match r.message with
  | some m => m.content
  | none => Content.null

def rsmLoop : List RawLine → Nat → String → String → String × String
  | [], _, project, firstPrompt => (project, firstPrompt)
  | l :: rest, linesRead, project, firstPrompt =>
    match l with
    | .blank => rsmLoop rest linesRead project firstPrompt
    | .malformed => rsmLoop rest (linesRead + 1) project firstPrompt
    | .record r =>
        let linesRead := linesRead + 1
        let project :=
          if project = "" then
            match r.cwd with
            | some c => trimStr c
            | none => project
          else project
        let firstPrompt :=
          if firstPrompt = "" ∧ r.type = some "user" ∧ r.isMeta = false then
            let text := extractText (contentOfRecord r)
            if trimStr text ≠ "" then trimStr text else firstPrompt
          else firstPrompt
        if project ≠ "" ∧ firstPrompt ≠ "" then (project, firstPrompt)
        else if 200 ≤ linesRead then (project, firstPrompt)
        else rsmLoop rest linesRead project firstPrompt

def readSessionMetadata (lines : List RawLine) : String × String :=
  rsmLoop lines 0 "" ""

/-! ## Filesystem model for the projects tree -/

structure FileStat where
  mtimeMs : Int
  size : Int
deriving Repr, DecidableEq

/-- A dirent of a project directory together with the file's stat result and
content (`none` stat = `fs.stat` throws). -/
structure FileEnt where
  name : String
  isFile : Bool
  stat : Option FileStat
  lines : List RawLine
deriving Repr, DecidableEq

/-- A dirent of the projects root; `files = none` means `fs.readdir` of this
directory throws. -/
structure ProjectEnt where
  name : String
  isDirectory : Bool
  files : Option (List FileEnt)
deriving Repr, DecidableEq

/-- The projects root; `root = none` means `fs.readdir(PROJECTS_DIR)` throws. -/
structure ProjectsFS where
  root : Option (List ProjectEnt)
deriving Repr, DecidableEq

/-- `listProjectDirectories` (source lines 147–158): empty on error, else the
directory entries.  The source's `{name, path}` projection is recovered by
`pathJoin projectsDir e.name`; we keep the whole entry so that later
`fs.readdir(projectDir.path)` results stay attached. -/
def listProjectDirectories (fs : ProjectsFS) : List ProjectEnt :=
  match fs.root with
  | none => []
  | some es => es.filter (fun e => e.isDirectory)

/-! ## Conversation cache scan (`refreshConversationCache`, source lines 258–333) -/

/-- `file.name.replace(/\.jsonl$/, '')`. -/
def sessionIdOfName (n : String) : String :=
  if strEndsWith n ".jsonl" then strDropRight n 6 else n

def filePathOf (projectsDir : String) (pd : ProjectEnt) (fname : String) : String :=
  pathJoin (pathJoin projectsDir pd.name) fname

/-- The freshness test of source lines 289–294: a cached entry is reused iff
it exists and `filePath`, `mtimeMs` and `size` all match the fresh stat. -/
def isFresh (cached : Option CachedConversation) (filePath : String) (st : FileStat) : Bool :=
  match cached with
  | some c => decide (c.filePath = filePath ∧ c.mtimeMs = st.mtimeMs ∧ c.size = st.size)
  | none => false

/-- The expensive path (source lines 299–310): extract metadata from the file
and fall back for the project name via `project || cached?.project || projectDir.name`. -/
def extractedEntry (cached : Option CachedConversation) (projectsDir : String)
    (pd : ProjectEnt) (f : FileEnt) (st : FileStat) : CachedConversation :=
  let sessionId := sessionIdOfName f.name
  let filePath := filePathOf projectsDir pd f.name
  let meta := readSessionMetadata f.lines
  let resolvedProject :=
    if meta.1 ≠ "" then meta.1
    else
      match cached with
      | some c => if c.project ≠ "" then c.project else pd.name
      | none => pd.name
  { sessionId := sessionId, project := resolvedProject, firstPrompt := meta.2,
    updatedAt := st.mtimeMs, filePath := filePath, mtimeMs := st.mtimeMs,
    size := st.size, projectDir := pathJoin projectsDir pd.name }

/-- Per-file body of the scan loop (source lines 288–310), after the stat
succeeded. -/
def processSessionFile (cache : CacheMap) (projectsDir : String)
    (pd : ProjectEnt) (f : FileEnt) (st : FileStat) : CachedConversation :=
  let sessionId := sessionIdOfName f.name
  let filePath := filePathOf projectsDir pd f.name
  match mapGet cache sessionId with
  | some c =>
      if c.filePath = filePath ∧ c.mtimeMs = st.mtimeMs ∧ c.size = st.size then
        { c with updatedAt := st.mtimeMs }
      else extractedEntry (some c) projectsDir pd f st
  | none => extractedEntry none projectsDir pd f st

/-- Inner loop over one directory's dirents (source lines 275–311). -/
def scanFiles (cache : CacheMap) (projectsDir : String) (pd : ProjectEnt)
    (acc : CacheMap) (files : List FileEnt) : CacheMap :=
  files.foldl
    (fun acc f =>
      if f.isFile = false then acc
      else if strEndsWith f.name ".jsonl" = false then acc
      else
        match f.stat with
        | none => acc
        | some st => mapSet acc (sessionIdOfName f.name) (processSessionFile cache projectsDir pd f st))
    acc

/-- Outer loop over project directories (source lines 268–312), building the
full replacement map `nextCache`; a directory whose `readdir` throws is
skipped. -/
def scanNextCache (cache : CacheMap) (projectsDir : String) (dirs : List ProjectEnt) : CacheMap :=
  dirs.foldl
    (fun acc pd =>
      match pd.files with
      | none => acc
      | some files => scanFiles cache projectsDir pd acc files)
    []

/-- Stable descending insertion by `updatedAt`, matching the stable JS
`sort((a, b) => b.updatedAt - a.updatedAt)`. -/
def insertDesc (acc : List ConversationSummary) (c : ConversationSummary) :
    List ConversationSummary :=
  match acc with
  | [] => [c]
  | d :: rest => if d.updatedAt < c.updatedAt then c :: d :: rest else d :: insertDesc rest c

def sortConversations (l : List ConversationSummary) : List ConversationSummary :=
  l.foldl insertDesc []

def SNAPSHOT_PROMPT_LIMIT : Nat := 120

/-- `buildSnapshotKey` (source lines 138–145). -/
def buildSnapshotKey (conversations : List ConversationSummary) : String :=
  String.intercalate "|"
    (conversations.map (fun c =>
      let promptSnippet := strTake c.firstPrompt SNAPSHOT_PROMPT_LIMIT
      c.sessionId ++ ":" ++ toString c.updatedAt ++ ":" ++ c.project ++ ":" ++ promptSnippet))

/-- Module state carried across scans: the conversation cache and the last
committed snapshot fingerprint. -/
structure ScanState where
  cache : CacheMap
  lastSnapshotKey : String
deriving Repr, DecidableEq

/-- The pure body of one scan (the async closure of source lines 260–327):
returns the new module state, the sorted summaries, and the `changed` flag.
The promise-deduplication shell around it (lines 258–259, 328–332) is
modelled separately as `RefreshCoordinator`, and the watcher resync of lines
262–265 lives in `WatchState`. -/
def refreshConversationCache (projectsDir : String) (fs : ProjectsFS)
    (st : ScanState) : ScanState × List ConversationSummary × Bool :=
  let projectDirs := listProjectDirectories fs
  let nextCache := scanNextCache st.cache projectsDir projectDirs
  let conversations := sortConversations ((mapValues nextCache).map toSummary)
  let snapshotKey := buildSnapshotKey conversations
  let changed := decide (snapshotKey ≠ st.lastSnapshotKey)
  (⟨nextCache, snapshotKey⟩, conversations, changed)

/-! ## Watch manager and debounce (source lines 53–60, 197–245, 356–367)

The module-level mutable state: the listener set (as a count), the per-project
watcher map (as the list of watched directories), the root watcher, the
pending debounce timer (as the absolute time at which it will fire), the
`watchersEnabled` flag, and a counter of refreshes performed by timer
callbacks (each fired timer runs `emitConversationUpdates`, which performs
exactly one refresh). -/

def debounceDelay : Nat := 150

structure WatchState where
  listenerCount : Nat
  projectWatchers : List String
  projectsWatcher : Bool
  refreshTimer : Option Nat
  watchersEnabled : Bool
  refreshCount : Nat
deriving Repr, DecidableEq

/-- `scheduleConversationRefresh` (source lines 238–245) invoked by a watch
event at absolute time `now`: a no-op when watchers are disabled; otherwise
`clearTimeout` of any pending timer followed by `setTimeout(…, 150)`. -/
def scheduleConversationRefresh (now : Nat) (s : WatchState) : WatchState :=
  if s.watchersEnabled = false then s
  else { s with refreshTimer := some (now + debounceDelay) }

/-- The `setTimeout` callback (source lines 241–244): clears the handle and
runs `emitConversationUpdates`, i.e. exactly one refresh. -/
def fireRefreshTimer (s : WatchState) : WatchState :=
  { s with refreshTimer := none, refreshCount := s.refreshCount + 1 }

/-- `stopWatchersIfIdle` (source lines 225–236). -/
def stopWatchersIfIdle (s : WatchState) : WatchState :=
  if 0 < s.listenerCount then s
  else
    { s with projectWatchers := [], projectsWatcher := false, watchersEnabled := false }

/-- The unsubscribe closure returned by `watchConversations` (source lines
363–366): remove the listener from the set, then `stopWatchersIfIdle`. -/
def unsubscribeListener (s : WatchState) : WatchState :=
  stopWatchersIfIdle { s with listenerCount := s.listenerCount - 1 }

/-! ## Refresh coordinator (source lines 57, 258–260, 328–332)

`refreshConversationCache` first returns the in-flight promise if one exists;
otherwise it stores a fresh promise (starting one directory walk) whose
`finally` clears the slot.  Promises are named by ids; two callers receiving
the same id await the same scan and therefore observe the same result. -/

structure RefreshCoordinator where
  refreshPromise : Option Nat
  walksStarted : Nat
  nextScanId : Nat
deriving Repr, DecidableEq

/-- One call to `refreshConversationCache`, returning the promise the caller
awaits. -/
def requestRefresh (s : RefreshCoordinator) : Nat × RefreshCoordinator :=
  match s.refreshPromise with
  | some scanId => (scanId, s)
  | none =>
      (s.nextScanId,
       { refreshPromise := some s.nextScanId,
         walksStarted := s.walksStarted + 1,
         nextScanId := s.nextScanId + 1 })

/-- The `finally` handler of the scan promise (source lines 328–330). -/
def scanCompleted (s : RefreshCoordinator) : RefreshCoordinator :=
  { s with refreshPromise := none }

/-! ## Session loader (`normalizeBlocks`, `loadConversation`, source lines
109–136 and 397–440) -/

structure UIBlock where
  type : String
  text : Option String := none
  name : Option String := none
  input : Option String := none
deriving Repr, DecidableEq

structure UIMeta where
  isMeta : Bool
  reasoningStatus : Option String
deriving Repr, DecidableEq

structure UIMessage where
  id : String
  role : String
  blocks : List UIBlock
  timestamp : Option String
  meta : UIMeta
deriving Repr, DecidableEq

def normalizeOneBlock (b : RawBlock) : UIBlock :=
  match b with
  | .text t => { type := "text", text := some (t.getD "") }
  | .toolUse n inputJson => { type := "tool_use", name := some (n.getD "tool"), input := some inputJson }
  | .toolResultStr s => { type := "tool_result", text := some s }
  | .toolResultOther j => { type := "tool_result", text := some j }
  | .thinking t => { type := "reasoning", text := some (t.getD "") }
  | .analysis t => { type := "reasoning", text := some (t.getD "") }
  | .reasoningBlk t => { type := "reasoning", text := some (t.getD "") }
  | .otherBlk j => { type := "other", text := some j }

/-- `normalizeBlocks` (source lines 109–136); note `!content` sends the empty
string to `[]`. -/
def normalizeBlocks (c : Content) : List UIBlock :=
  match c with
  | .null => []
  | .str s => if s = "" then [] else [{ type := "text", text := some s }]
  | .arr bs => bs.map normalizeOneBlock
  | .otherVal => []

/-- The per-record body of the `loadConversation` loop (source lines 405–437);
`none` when the record is skipped (`continue`).  `crypto.randomUUID()` is
modelled by a fixed placeholder string: no claim concerns message ids. -/
def mkMessage (r : SessionRecord) : Option UIMessage :=
  if r.type ≠ some "user" ∧ r.type ≠ some "assistant" then none
  else
    match r.message with
    | none => none
    | some msg =>
        match msg.role with
        | none => none
        | some role =>
            if role = "" then none
            else
              let blocks := normalizeBlocks msg.content
              if blocks = [] then none
              else
                let reasoningStatus :=
                  if blocks.any (fun b => b.type = "reasoning") then "provided"
                  else if r.thinkingDisabled then "disabled" else "unknown"
                let outRole :=
                  if blocks.all (fun b => b.type = "tool_result") then "tool" else role
                some
                  { id := r.uuid.getD (msg.id.getD "randomUUID"),
                    role := outRole,
                    blocks := blocks,
                    timestamp := r.timestamp,
                    meta :=
                      { isMeta := r.isMeta,
                        reasoningStatus :=
                          if role = "assistant" then some reasoningStatus else none } }

/-- The `lastModel` accumulator of the same loop: set (before the block-count
check) for every kept record whose `message.role === 'assistant'` and whose
`message.model` is truthy. -/
def lastModelOf (records : List SessionRecord) : Option String :=
  records.foldl
    (fun acc r =>
      if r.type ≠ some "user" ∧ r.type ≠ some "assistant" then acc
      else
        match r.message with
        | none => acc
        | some msg =>
            match msg.role with
            | none => acc
            | some role =>
                if role = "" then acc
                else if role = "assistant" ∧ msg.model ≠ none ∧ msg.model ≠ some "" then msg.model
                else acc)
    none

/-- The record loop of `loadConversation` (source lines 401–439). -/
def processRecords (records : List SessionRecord) : List UIMessage × Option String :=
  (records.filterMap mkMessage, lastModelOf records)

/-- `encodeProjectPath` (source lines 63–65). -/
def encodeProjectPath (p : String) : String :=
  String.map (fun c => if c = '/' ∨ c = '\\' then '-' else c) p

/-- Environment of the session loader: the configured projects directory, the
`fs.access` oracle, the raw-file reader (`none` = `fs.readFile` throws), and
the projects tree a forced scan would observe. -/
structure LoadEnv where
  projectsDir : String
  fileExists : String → Bool
  fileLines : String → Option (List RawLine)
  scanFS : ProjectsFS

/-- The deterministic candidate path of source line 345. -/
def candidatePath (env : LoadEnv) (sessionId : String) (project : String) : String :=
  pathJoin (pathJoin env.projectsDir (encodeProjectPath project)) (sessionId ++ ".jsonl")

/-- `readJsonLines` (source lines 76–95): empty on read error; otherwise the
successfully parsed records, blank and malformed lines dropped. -/
def readJsonLines (env : LoadEnv) (filePath : String) : List SessionRecord :=
  match env.fileLines filePath with
  | none => []
  | some ls =>
      ls.filterMap (fun l =>
        match l with
        | .record r => some r
        | _ => none)

/-- `resolveSessionFile` (source lines 343–354).  Returns the resolved path
(`none` when nothing resolves) together with the scan state, which a forced
fresh scan mutates. -/
def resolveSessionFile (env : LoadEnv) (st : ScanState) (sessionId : String)
    (project : Option String) : Option String × ScanState :=
  let viaProject : Option String :=
    match project with
    | none => none
    | some p =>
        if p = "" then none
        else if env.fileExists (candidatePath env sessionId p) then
          some (candidatePath env sessionId p)
        else none
  match viaProject with
  | some c => (some c, st)
  | none =>
      match mapGet st.cache sessionId with
      | some cached => (some cached.filePath, st)
      | none =>
          let scanned := refreshConversationCache env.projectsDir env.scanFS st
          match scanned.2.1.find? (fun c => c.sessionId = sessionId) with
          | none => (none, scanned.1)
          | some _ => ((mapGet scanned.1.cache sessionId).map (fun c => c.filePath), scanned.1)

/-- `loadConversation` (source lines 397–440). -/
def loadConversation (env : LoadEnv) (st : ScanState) (sessionId : String)
    (project : Option String) : (List UIMessage × Option String) × ScanState :=
  let resolved := resolveSessionFile env st sessionId project
  match resolved.1 with
  | none => (([], none), resolved.2)
  | some filePath => (processRecords (readJsonLines env filePath), resolved.2)

/-! ## Directory browser and root clamp (source lines 335–341, 374–395) -/

/-- Configuration and filesystem oracle of the browser.  `rootDir` models
`ROOT_DIR = path.resolve(…)`, `cwd` the working directory `path.resolve`
uses for relative inputs, `readdir` yields `(name, isDirectory)` dirents or
`none` on error. -/
structure BrowseEnv where
  rootDir : String
  showHidden : Bool
  cwd : String
  readdir : String → Option (List (String × Bool))

/-- `clampToRoot` (source lines 335–341). -/
def clampToRoot (env : BrowseEnv) (targetPath : String) : String :=
  let resolved := resolvePath env.cwd targetPath
  if resolved = env.rootDir then resolved
  else if env.rootDir = "/" then resolved
  else
    let rootWithSep := if strEndsWith env.rootDir "/" then env.rootDir else env.rootDir ++ "/"
    if strStartsWith resolved rootWithSep then resolved else env.rootDir

/-- Lexicographic character-list comparison (the reading of `localeCompare`
used here). -/
def charListLt : List Char → List Char → Bool
  | [], [] => false
  | [], _ :: _ => true
  | _ :: _, [] => false
  | a :: as, b :: bs => if a < b then true else if b < a then false else charListLt as bs

def strLt (s t : String) : Bool :=
  charListLt s.data t.data

/-- Stable ascending insertion, matching the stable JS
`sort((a, b) => a.localeCompare(b))`. -/
def insertAsc (acc : List String) (s : String) : List String :=
  match acc with
  | [] => [s]
  | t :: rest => if strLt s t then s :: t :: rest else t :: insertAsc rest s

def sortStrings (l : List String) : List String :=
  l.foldl insertAsc []

/-- `listDirectories` (source lines 374–395); a falsy `requestPath`
(absent or empty string) browses the root directly. -/
def listDirectories (env : BrowseEnv) (requestPath : Option String) : DirectoryListing :=
  let basePath :=
    match requestPath with
    | none => env.rootDir
    | some p => if p = "" then env.rootDir else clampToRoot env p
  let dirEntries :=
    match env.readdir basePath with
    | none => []
    | some entries =>
        sortStrings
          (((entries.filter (fun e => e.2)).map (fun e => e.1)).filter
            (fun n => env.showHidden || !(strStartsWith n ".")))
  let parent := if basePath = env.rootDir then none else some (dirname basePath)
  { path := basePath, parent := parent, entries := dirEntries }

/-- The root-containment predicate of spec §4.5: a path is within the root iff
it equals the root or extends it past a separator. -/
def isWithinRoot (root q : String) : Bool :=
  let rootWithSep := if strEndsWith root "/" then root else root ++ "/"
  decide (q = root) || strStartsWith q rootWithSep

/-! ## Event traces for the debounce layer -/

/-- Feed a chronological burst of watch events through
`scheduleConversationRefresh`. -/
def runEvents (s : WatchState) (ts : List Nat) : WatchState :=
  ts.foldl (fun s t => scheduleConversationRefresh t s) s

/-- `withinWindow d ts`: every event time in `ts` precedes the deadline that
is pending when it arrives (`d` for the first, each event re-arming the
deadline to `t + 150`), so no timer fires between the events. -/
def withinWindow : Nat → List Nat → Bool
  | _, [] => true
  | d, t :: ts => decide (t < d) && withinWindow (t + debounceDelay) ts

/-! ## Occurrence decomposition of the scan (proof support for idempotence) -/

/-- The filter applied to one dirent before the per-file body runs: skipped
dirents (`continue`) yield `none`. -/
def fileOcc (pd : ProjectEnt) (f : FileEnt) : Option (ProjectEnt × FileEnt × FileStat) :=
  if f.isFile = false then none
  else if strEndsWith f.name ".jsonl" = false then none
  else
    match f.stat with
    | none => none
    | some st => some (pd, f, st)

/-- All (directory, file, stat) occurrences one scan processes, in order. -/
def occList : List ProjectEnt → List (ProjectEnt × FileEnt × FileStat)
  | [] => []
  | pd :: dirs =>
      (match pd.files with
       | none => []
       | some files => files.filterMap (fileOcc pd)) ++ occList dirs

/-- Key/value pair one occurrence writes into `nextCache`. -/
def occEntry (cache : CacheMap) (projectsDir : String)
    (o : ProjectEnt × FileEnt × FileStat) : String × CachedConversation :=
  (sessionIdOfName o.2.1.name, processSessionFile cache projectsDir o.1 o.2.1 o.2.2)

/-- Replay a list of `set` writes into an empty map. -/
def buildMap (l : List (String × CachedConversation)) : CacheMap :=
  l.foldl (fun acc kv => mapSet acc kv.1 kv.2) []

/-- Value of the last write with key `k` in a write list. -/
def lastVal : List (String × CachedConversation) → String → Option CachedConversation
  | [], _ => none
  | kv :: l, k =>
      match lastVal l k with
      | some v => some v
      | none => if kv.1 = k then some kv.2 else none

/-- Key-order effect of one `Map.set`: an existing key keeps its slot, a new
key is appended. -/
def keyInsert (ks : List String) (k : String) : List String :=
  if k ∈ ks then ks else ks ++ [k]

/-! ## Failure pruning (proof support for failure isolation) -/

/-- Drop from each directory listing the files whose `stat` throws. -/
def pruneFileEnts (files : List FileEnt) : List FileEnt :=
  files.filter (fun f => f.stat.isSome)

/-- Drop every unit whose filesystem call throws: directories whose `readdir`
throws and files whose `stat` throws. -/
def pruneFS (fs : ProjectsFS) : ProjectsFS :=
  { root := fs.root.map (fun es =>
      (es.filter (fun e => e.files.isSome)).map (fun e =>
        { e with files := e.files.map pruneFileEnts })) }

/-- Does the tree contain any unit whose filesystem call throws? -/
def scanFailures (fs : ProjectsFS) : Bool :=
  match fs.root with
  | none => false
  | some es =>
      es.any (fun e =>
        e.files.isNone || (e.files.getD []).any (fun f => f.stat.isNone))

/-! ## Concrete instances used by the witnesses -/

/-- A one-record transcript: a user message with `cwd` and a prompt. -/
def wLines : List RawLine :=
  [RawLine.record
    ⟨some "user", false, some "/proj", none, none,
     some ⟨some "user", Content.str "hello", none, none⟩, false⟩]

def wFile : FileEnt := ⟨"abc.jsonl", true, some ⟨5, 10⟩, wLines⟩

def wFS : ProjectsFS := ⟨some [⟨"p1", true, some [wFile]⟩]⟩

/-- A transcript whose metadata extraction returns an empty project and an
empty prompt. -/
def wEmptyFile : FileEnt := ⟨"emp.jsonl", true, some ⟨7, 3⟩, []⟩

def wEmptyFS : ProjectsFS := ⟨some [⟨"dirname", true, some [wEmptyFile]⟩]⟩

def wBrowseEnv : BrowseEnv :=
  ⟨"/home/alice", false, "/",
   fun p => if p = "/home/alice" then some [("docs", true), ("bin", true)] else none⟩

def wLoadEnv : LoadEnv :=
  ⟨"/cp", fun _ => false, fun _ => none, ⟨some []⟩⟩

/-- A record mixing a text block and a tool_result block. -/
def wMixedRecord : SessionRecord :=
  ⟨some "user", false, none, some "u1", none,
   some ⟨some "user", Content.arr [RawBlock.text (some "hi"), RawBlock.toolResultStr "ok"],
         none, none⟩,
   false⟩

/-- A cached entry matching `wFile` under projects dir `"/cp"`. -/
def wCached : CachedConversation :=
  ⟨"abc", "/proj", "hello", 5, "/cp/p1/abc.jsonl", 5, 10, "/cp/p1"⟩

def wDir : ProjectEnt := ⟨"p1", true, some [wFile]⟩

/-- The display message `wMixedRecord` maps to. -/
def wMixedMsg : UIMessage :=
  { id := "u1", role := "user",
    blocks := [{ type := "text", text := some "hi" }, { type := "tool_result", text := some "ok" }],
    timestamp := none,
    meta := { isMeta := false, reasoningStatus := none } }

/-! # Theorems -/

/-! ## Debounce layer (C2) -/

theorem scheduleConversationRefresh_enabled (t : Nat) (s : WatchState)
    (h : s.watchersEnabled = true) :
    scheduleConversationRefresh t s = { s with refreshTimer := some (t + debounceDelay) } := by
  simp [scheduleConversationRefresh, h]

theorem runEvents_watchersEnabled (s : WatchState) (ts : List Nat) :
    (runEvents s ts).watchersEnabled = s.watchersEnabled := by
  induction ts generalizing s with
  | nil => rfl
  | cons t ts ih =>
      show (runEvents (scheduleConversationRefresh t s) ts).watchersEnabled = _
      rw [ih]
      simp only [scheduleConversationRefresh]
      split <;> rfl

theorem runEvents_refreshCount (s : WatchState) (ts : List Nat) :
    (runEvents s ts).refreshCount = s.refreshCount := by
  induction ts generalizing s with
  | nil => rfl
  | cons t ts ih =>
      show (runEvents (scheduleConversationRefresh t s) ts).refreshCount = _
      rw [ih]
      simp only [scheduleConversationRefresh]
      split <;> rfl

theorem runEvents_timer_isSome (s : WatchState) (ts : List Nat)
    (hEnabled : s.watchersEnabled = true) (hPending : s.refreshTimer ≠ none) :
    (runEvents s ts).refreshTimer ≠ none := by
  induction ts generalizing s with
  | nil => exact hPending
  | cons t ts ih =>
      show (runEvents (scheduleConversationRefresh t s) ts).refreshTimer ≠ none
      refine ih _ ?_ ?_
      · rw [scheduleConversationRefresh_enabled t s hEnabled]
        exact hEnabled
      · rw [scheduleConversationRefresh_enabled t s hEnabled]
        simp

/-- C2, as stated, is false on the code: `scheduleConversationRefresh` runs
`clearTimeout` and `setTimeout` on every event, so an event arriving during
the pending window replaces (re-arms) the timer.  Starting from an idle
enabled state, an event at time 0 arms a timer with deadline 150; the claim
says a second event at time 50 (inside the window) leaves that timer alone,
but the code moves the deadline to 200. -/
theorem C2_counterexample :
    ¬ ((scheduleConversationRefresh 50
          (scheduleConversationRefresh 0 ⟨1, [], true, none, true, 0⟩)).refreshTimer =
        (scheduleConversationRefresh 0
          (⟨1, [], true, none, true, 0⟩ : WatchState)).refreshTimer) := by
  decide

/-- C2 (amended): while watchers are enabled, every filesystem event cancels
any pending debounce timer and arms a fresh one expiring `150` ms later
(trailing-edge debounce with reset-on-event, not arm-only-when-idle); at most
one timer is ever pending (the state holds at most one handle), and when the
timer fires exactly one refresh runs — so a burst of events falling within
one another's debounce windows, e.g. five events, still triggers exactly one
scan. -/
theorem C2_debounce_coalesce (s : WatchState) (t : Nat) (ts : List Nat)
    (hEnabled : s.watchersEnabled = true)
    (hIdle : s.refreshTimer = none)
    (hWindow : withinWindow (t + debounceDelay) ts = true) :
    (scheduleConversationRefresh t s).refreshTimer = some (t + debounceDelay) ∧
    (runEvents s (t :: ts)).refreshTimer ≠ none ∧
    (fireRefreshTimer (runEvents s (t :: ts))).refreshCount = s.refreshCount + 1 ∧
    (fireRefreshTimer (runEvents s (t :: ts))).refreshTimer = none := by
  refine ⟨?_, ?_, ?_, rfl⟩
  · rw [scheduleConversationRefresh_enabled t s hEnabled]
  · show (runEvents (scheduleConversationRefresh t s) ts).refreshTimer ≠ none
    refine runEvents_timer_isSome _ ts ?_ ?_
    · rw [scheduleConversationRefresh_enabled t s hEnabled]
      exact hEnabled
    · rw [scheduleConversationRefresh_enabled t s hEnabled]
      simp
  · show (runEvents (scheduleConversationRefresh t s) ts).refreshCount + 1 = _
    rw [runEvents_refreshCount]
    rw [scheduleConversationRefresh_enabled t s hEnabled]

theorem C2_debounce_coalesce_witness :
    (fireRefreshTimer (runEvents ⟨1, [], true, none, true, 0⟩ [0, 10, 20, 30, 40])).refreshCount
        = 1 ∧
    (fireRefreshTimer (runEvents ⟨1, [], true, none, true, 0⟩ [0, 10, 20, 30, 40])).refreshTimer
        = none :=
  ⟨(C2_debounce_coalesce ⟨1, [], true, none, true, 0⟩ 0 [10, 20, 30, 40]
      rfl rfl (by decide)).2.2.1,
   (C2_debounce_coalesce ⟨1, [], true, none, true, 0⟩ 0 [10, 20, 30, 40]
      rfl rfl (by decide)).2.2.2⟩

/-! ## Watch teardown on last unsubscribe (C3) -/

/-- C3, as stated, is false on the code: `stopWatchersIfIdle` closes the
watchers but never runs `clearTimeout(refreshTimer)`.  From a state with one
listener, one project watcher, the root watcher and a pending timer
(deadline 150), the unsubscribe closure leaves `refreshTimer` still set. -/
theorem C3_counterexample :
    ¬ ((unsubscribeListener ⟨1, ["d"], true, some 150, true, 0⟩).refreshTimer = none) := by
  decide

/-- C3 (amended): when the last subscriber unsubscribes, all project watchers
and the projects-root watcher are synchronously closed and `watchersEnabled`
is cleared, so no later watch event can arm a timer; but a debounce timer
already pending is *not* cancelled — it stays armed and, when it fires, still
performs one refresh (which notifies no one, the listener set being empty). -/
theorem C3_stop_watchers (s : WatchState) (hLast : s.listenerCount = 1) :
    (unsubscribeListener s).projectWatchers = [] ∧
    (unsubscribeListener s).projectsWatcher = false ∧
    (unsubscribeListener s).watchersEnabled = false ∧
    (unsubscribeListener s).refreshTimer = s.refreshTimer ∧
    (∀ t, scheduleConversationRefresh t (unsubscribeListener s) = unsubscribeListener s) ∧
    (fireRefreshTimer (unsubscribeListener s)).refreshCount = s.refreshCount + 1 := by
  have hstop : unsubscribeListener s =
      { s with listenerCount := s.listenerCount - 1, projectWatchers := [],
               projectsWatcher := false, watchersEnabled := false } := by
    simp [unsubscribeListener, stopWatchersIfIdle, hLast]
  refine ⟨by rw [hstop], by rw [hstop], by rw [hstop], by rw [hstop], ?_, by rw [hstop]; rfl⟩
  intro t
  rw [hstop]
  simp [scheduleConversationRefresh]

theorem C3_stop_watchers_witness :
    (unsubscribeListener ⟨1, ["d"], true, some 150, true, 0⟩).watchersEnabled = false ∧
    (unsubscribeListener ⟨1, ["d"], true, some 150, true, 0⟩).refreshTimer = some 150 :=
  ⟨(C3_stop_watchers ⟨1, ["d"], true, some 150, true, 0⟩ rfl).2.2.1,
   (C3_stop_watchers ⟨1, ["d"], true, some 150, true, 0⟩ rfl).2.2.2.1⟩

/-! ## Refresh coordinator (C6) -/

/-- C6: a refresh call arriving while a scan is in flight receives the
in-flight scan's promise (hence its result) and starts no second directory
walk.  From an idle coordinator, the first call starts one walk; a second
call issued before the scan's `finally` clears the slot returns the same
promise id, leaves the state untouched, and the pair of calls started exactly
one walk. -/
theorem C6_refresh_collapse (s : RefreshCoordinator) (hIdle : s.refreshPromise = none) :
    (requestRefresh (requestRefresh s).2).1 = (requestRefresh s).1 ∧
    (requestRefresh (requestRefresh s).2).2 = (requestRefresh s).2 ∧
    (requestRefresh (requestRefresh s).2).2.walksStarted = s.walksStarted + 1 := by
  simp [requestRefresh, hIdle]

theorem C6_refresh_collapse_witness :
    (requestRefresh (requestRefresh ⟨none, 0, 0⟩).2).1 = (requestRefresh ⟨none, 0, 0⟩).1 ∧
    (requestRefresh (requestRefresh ⟨none, 0, 0⟩).2).2 = (requestRefresh ⟨none, 0, 0⟩).2 ∧
    (requestRefresh (requestRefresh ⟨none, 0, 0⟩).2).2.walksStarted = 1 :=
  C6_refresh_collapse ⟨none, 0, 0⟩ rfl

/-! ## Role classification in the session loader (C9) -/

/-- C9: for every record `loadConversation` emits (their roles come from the
transcript format, `user` or `assistant`, never the literal `"tool"`), the
emitted message's role is `"tool"` iff every normalized block is a
`tool_result` block; otherwise the message keeps the record's own
`message.role` — in particular a message mixing text and tool_result blocks
keeps the underlying role.  The emitted block list is never empty (empty
records are dropped), so the `iff` is never vacuous. -/
theorem C9_role_classification (r : SessionRecord) (msg : MessageObj) (role : String)
    (m : UIMessage)
    (hMsg : r.message = some msg) (hRole : msg.role = some role)
    (hNotTool : role ≠ "tool") (hMk : mkMessage r = some m) :
    m.blocks ≠ [] ∧
    (m.role = "tool" ↔ m.blocks.all (fun b => b.type = "tool_result") = true) ∧
    (m.blocks.all (fun b => b.type = "tool_result") = false → m.role = role) := by
  unfold mkMessage at hMk
  rw [hMsg] at hMk
  dsimp only at hMk
  rw [hRole] at hMk
  dsimp only at hMk
  split at hMk
  next => exact absurd hMk (by simp)
  next =>
    split at hMk
    next => exact absurd hMk (by simp)
    next =>
      split at hMk
      next => exact absurd hMk (by simp)
      next hB =>
        have hm := Option.some.inj hMk
        subst hm
        refine ⟨hB, ?_, ?_⟩
        · cases hAll : (normalizeBlocks msg.content).all (fun b => b.type = "tool_result") with
          | true => simp [hAll]
          | false => simp [hAll, hNotTool]
        · intro hAll
          simp [hAll]

theorem C9_role_classification_witness :
    wMixedMsg.blocks.all (fun b => b.type = "tool_result") = false ∧
    wMixedMsg.role = "user" :=
  ⟨by decide,
   (C9_role_classification wMixedRecord
      ⟨some "user", Content.arr [RawBlock.text (some "hi"), RawBlock.toolResultStr "ok"],
       none, none⟩
      "user" wMixedMsg rfl rfl (by decide) rfl).2.2 (by decide)⟩

/-! ## Unknown-session resolution (C7) -/

/-- C7: when nothing resolves — the deterministic
`<projectsDir>/<encoded project>/<sessionId>.jsonl` candidate does not exist
(vacuous when no truthy project is given), the cache has no entry for the
session id, and the forced fresh scan does not surface it either —
`loadConversation` returns `{ messages: [], model: null }`.  The embedding is
a total function, so no input makes it throw: an unknown session and an
empty one are indistinguishable to callers. -/
theorem C7_unknown_session (env : LoadEnv) (st : ScanState) (sessionId : String)
    (project : Option String)
    (hCand : ∀ p, project = some p → p ≠ "" →
      env.fileExists (candidatePath env sessionId p) = false)
    (hCache : mapGet st.cache sessionId = none)
    (hScan : (refreshConversationCache env.projectsDir env.scanFS st).2.1.find?
        (fun c => c.sessionId = sessionId) = none) :
    (loadConversation env st sessionId project).1 = ([], none) := by
  cases project with
  | none =>
      simp only [loadConversation, resolveSessionFile, hCache, hScan]
  | some p =>
      by_cases hp : p = ""
      · subst hp
        simp only [loadConversation, resolveSessionFile, if_pos rfl, if_true, ite_true,
          hCache, hScan]
      · have h1 := hCand p rfl hp
        simp only [loadConversation, resolveSessionFile, if_neg hp, h1, Bool.false_eq_true,
          if_false, hCache, hScan]

theorem C7_unknown_session_witness :
    (loadConversation wLoadEnv ⟨[], ""⟩ "nope" none).1 = ([], none) :=
  C7_unknown_session wLoadEnv ⟨[], ""⟩ "nope" none
    (fun p h => by cases h) rfl rfl

/-! ## Directory browser and root clamp (C4) -/

theorem resolvePath_slash (cwd p : String) :
    strStartsWith (resolvePath cwd p) "/" = true := by
  unfold resolvePath strStartsWith
  rw [String.data_append]
  simp [List.isPrefixOf]

theorem isWithinRoot_clampToRoot (env : BrowseEnv) (p : String) :
    isWithinRoot env.rootDir (clampToRoot env p) = true := by
  unfold clampToRoot isWithinRoot
  by_cases h1 : resolvePath env.cwd p = env.rootDir
  · simp [h1]
  · rw [if_neg h1]
    by_cases h2 : env.rootDir = "/"
    · rw [if_pos h2, h2]
      have : strEndsWith "/" "/" = true := by decide
      rw [this]
      simp [resolvePath_slash]
    · rw [if_neg h2]
      by_cases h3 : strStartsWith (resolvePath env.cwd p)
          (if strEndsWith env.rootDir "/" then env.rootDir else env.rootDir ++ "/") = true
      · rw [if_pos h3]
        simp [h3]
      · rw [if_neg h3]
        simp

theorem clampToRoot_outside (env : BrowseEnv) (p : String)
    (hOut : isWithinRoot env.rootDir (resolvePath env.cwd p) = false) :
    clampToRoot env p = env.rootDir := by
  unfold isWithinRoot at hOut
  rw [Bool.or_eq_false_iff] at hOut
  unfold clampToRoot
  rw [if_neg (by simpa using hOut.1)]
  by_cases h2 : env.rootDir = "/"
  · exfalso
    have h4 := hOut.2
    rw [h2] at h4
    rw [show strEndsWith "/" "/" = true from by decide] at h4
    simp only [if_true, ite_true] at h4
    exact absurd (resolvePath_slash env.cwd p) (by simp [h4])
  · rw [if_neg h2, if_neg (by simpa using hOut.2)]

/-- C4: `listDirectories` resolves every request to an absolute path that is
always within (or equal to) the configured root — a resolution landing
outside the root is silently replaced by the root itself, never an error (the
embedding is total) and never an escape; consequently any request whose
resolved path is outside the root returns exactly the root listing
(`list("/etc")` under root `/home/alice` behaves like `list(null)`), and the
returned `parent` is `null` exactly when the returned path equals the root. -/
theorem C4_root_clamp (env : BrowseEnv) (requestPath : Option String)
    (hRoot : strStartsWith env.rootDir "/" = true) :
    strStartsWith (listDirectories env requestPath).path "/" = true ∧
    isWithinRoot env.rootDir (listDirectories env requestPath).path = true ∧
    ((listDirectories env requestPath).parent = none ↔
      (listDirectories env requestPath).path = env.rootDir) ∧
    (∀ p, requestPath = some p →
      isWithinRoot env.rootDir (resolvePath env.cwd p) = false →
      listDirectories env requestPath = listDirectories env none) := by
  have hRootWithin : isWithinRoot env.rootDir env.rootDir = true := by
    unfold isWithinRoot
    simp
  have hBase : ∀ q, (listDirectories env q).path =
      (match q with
       | none => env.rootDir
       | some p => if p = "" then env.rootDir else clampToRoot env p) := by
    intro q
    rfl
  have hParent : ∀ q, (listDirectories env q).parent = none ↔
      (listDirectories env q).path = env.rootDir := by
    intro q
    show (if (match q with
       | none => env.rootDir
       | some p => if p = "" then env.rootDir else clampToRoot env p) = env.rootDir
        then (none : Option String)
        else some (dirname _)) = none ↔ _
    rw [hBase q]
    split
    next h => simp [h]
    next h => simp [h]
  have hClampAbs : ∀ q, strStartsWith (clampToRoot env q) "/" = true := by
    intro q
    unfold clampToRoot
    dsimp only
    by_cases h1 : resolvePath env.cwd q = env.rootDir
    · rw [if_pos h1]
      exact resolvePath_slash env.cwd q
    · rw [if_neg h1]
      by_cases h2 : env.rootDir = "/"
      · rw [if_pos h2]
        exact resolvePath_slash env.cwd q
      · rw [if_neg h2]
        by_cases h3 : strStartsWith (resolvePath env.cwd q)
            (if strEndsWith env.rootDir "/" then env.rootDir else env.rootDir ++ "/") = true
        · rw [if_pos h3]
          exact resolvePath_slash env.cwd q
        · rw [if_neg h3]
          exact hRoot
  have hCongr : ∀ q₁ q₂ : Option String,
      (match q₁ with
       | none => env.rootDir
       | some p => if p = "" then env.rootDir else clampToRoot env p) =
      (match q₂ with
       | none => env.rootDir
       | some p => if p = "" then env.rootDir else clampToRoot env p) →
      listDirectories env q₁ = listDirectories env q₂ := by
    intro q₁ q₂ h
    simp only [listDirectories]
    rw [h]
  refine ⟨?_, ?_, hParent requestPath, ?_⟩
  · cases requestPath with
    | none => exact hRoot
    | some p =>
        show strStartsWith (if p = "" then env.rootDir else clampToRoot env p) "/" = true
        by_cases hp : p = ""
        · simp [hp, hRoot]
        · rw [if_neg hp]
          exact hClampAbs p
  · cases requestPath with
    | none => exact hRootWithin
    | some p =>
        show isWithinRoot env.rootDir (if p = "" then env.rootDir else clampToRoot env p) = true
        by_cases hp : p = ""
        · simp [hp, hRootWithin]
        · rw [if_neg hp]
          exact isWithinRoot_clampToRoot env p
  · intro p hp hOut
    subst hp
    refine hCongr (some p) none ?_
    show (if p = "" then env.rootDir else clampToRoot env p) = env.rootDir
    by_cases hp0 : p = ""
    · rw [if_pos hp0]
    · rw [if_neg hp0, clampToRoot_outside env p hOut]

theorem C4_root_clamp_witness :
    listDirectories wBrowseEnv (some "/etc") = listDirectories wBrowseEnv none ∧
    (listDirectories wBrowseEnv (some "/etc")).parent = none :=
  ⟨(C4_root_clamp wBrowseEnv (some "/etc") rfl).2.2.2 "/etc" rfl (by decide),
   (C4_root_clamp wBrowseEnv (some "/etc") rfl).2.2.1.mpr rfl⟩

/-! ## Freshness gate of the scan (C1) -/

/-- C1: during a scan a session file's cached metadata is reused — without
reading the file, so the result is the same for any file content `g` with the
same name — iff a prior cache entry exists whose `filePath`, `mtimeMs` and
`size` all equal the fresh stat's; on any mismatch (in particular an mtime
change with unchanged content) the entry is rebuilt through
`readSessionMetadata` on the file's lines. -/
theorem C1_freshness_gate (cache : CacheMap) (projectsDir : String) (pd : ProjectEnt)
    (f : FileEnt) (st : FileStat) :
    (isFresh (mapGet cache (sessionIdOfName f.name)) (filePathOf projectsDir pd f.name) st = true ↔
      ∃ c, mapGet cache (sessionIdOfName f.name) = some c ∧
        c.filePath = filePathOf projectsDir pd f.name ∧
        c.mtimeMs = st.mtimeMs ∧ c.size = st.size) ∧
    (isFresh (mapGet cache (sessionIdOfName f.name)) (filePathOf projectsDir pd f.name) st = true →
      ∀ c, mapGet cache (sessionIdOfName f.name) = some c →
        ∀ g : FileEnt, g.name = f.name →
          processSessionFile cache projectsDir pd g st = { c with updatedAt := st.mtimeMs }) ∧
    (isFresh (mapGet cache (sessionIdOfName f.name)) (filePathOf projectsDir pd f.name) st = false →
      processSessionFile cache projectsDir pd f st =
        extractedEntry (mapGet cache (sessionIdOfName f.name)) projectsDir pd f st ∧
      (processSessionFile cache projectsDir pd f st).firstPrompt =
        (readSessionMetadata f.lines).2) := by
  refine ⟨?_, ?_, ?_⟩
  · unfold isFresh
    cases h : mapGet cache (sessionIdOfName f.name) with
    | none => simp
    | some c => simp
  · intro hF c hc g hg
    unfold processSessionFile
    dsimp only
    rw [show sessionIdOfName g.name = sessionIdOfName f.name from by rw [hg]]
    rw [show filePathOf projectsDir pd g.name = filePathOf projectsDir pd f.name from by rw [hg]]
    rw [hc]
    dsimp only
    unfold isFresh at hF
    rw [hc] at hF
    rw [if_pos (of_decide_eq_true hF)]
  · intro hF
    have hext : processSessionFile cache projectsDir pd f st =
        extractedEntry (mapGet cache (sessionIdOfName f.name)) projectsDir pd f st := by
      unfold processSessionFile
      dsimp only
      cases h : mapGet cache (sessionIdOfName f.name) with
      | none => rfl
      | some c =>
          dsimp only
          unfold isFresh at hF
          rw [h] at hF
          rw [if_neg (of_decide_eq_false hF)]
    exact ⟨hext, by rw [hext]; rfl⟩

theorem C1_freshness_gate_witness :
    isFresh (mapGet [("abc", wCached)] (sessionIdOfName wFile.name))
        (filePathOf "/cp" wDir wFile.name) ⟨5, 10⟩ = true ∧
    processSessionFile [("abc", wCached)] "/cp" wDir ⟨"abc.jsonl", true, none, []⟩ ⟨5, 10⟩ =
      { wCached with updatedAt := (5 : Int) } :=
  ⟨by decide,
   (C1_freshness_gate [("abc", wCached)] "/cp" wDir wFile ⟨5, 10⟩).2.1 (by decide) wCached
     (by decide) ⟨"abc.jsonl", true, none, []⟩ rfl⟩

/-! ## Map and sort membership lemmas -/

theorem mapGet_mem {α : Type} (m : List (String × α)) (k : String) (v : α)
    (h : mapGet m k = some v) : (k, v) ∈ m := by
  induction m with
  | nil => simp [mapGet] at h
  | cons kv rest ih =>
      obtain ⟨k', v'⟩ := kv
      unfold mapGet at h
      by_cases hk : k' = k
      · rw [if_pos hk] at h
        subst hk
        obtain rfl := Option.some.inj h
        exact List.mem_cons_self _ _
      · rw [if_neg hk] at h
        exact List.mem_cons_of_mem _ (ih h)

theorem mem_mapSet {α : Type} (m : List (String × α)) (k : String) (v : α) (kv : String × α)
    (h : kv ∈ mapSet m k v) : kv = (k, v) ∨ kv ∈ m := by
  induction m with
  | nil => simpa [mapSet] using h
  | cons kv' rest ih =>
      obtain ⟨k', v'⟩ := kv'
      unfold mapSet at h
      by_cases hk : k' = k
      · rw [if_pos hk] at h
        subst hk
        rcases List.mem_cons.mp h with h1 | h1
        · exact Or.inl h1
        · exact Or.inr (List.mem_cons_of_mem _ h1)
      · rw [if_neg hk] at h
        rcases List.mem_cons.mp h with h1 | h1
        · exact Or.inr (h1 ▸ List.mem_cons_self _ _)
        · rcases ih h1 with h2 | h2
          · exact Or.inl h2
          · exact Or.inr (List.mem_cons_of_mem _ h2)

theorem mem_insertDesc (acc : List ConversationSummary) (c x : ConversationSummary) :
    x ∈ insertDesc acc c ↔ x = c ∨ x ∈ acc := by
  induction acc with
  | nil => simp [insertDesc]
  | cons d rest ih =>
      unfold insertDesc
      split
      · simp [List.mem_cons]
      · simp only [List.mem_cons, ih]
        tauto

theorem mem_sortConversations (l : List ConversationSummary) (x : ConversationSummary) :
    x ∈ sortConversations l ↔ x ∈ l := by
  suffices h : ∀ (l : List ConversationSummary) (acc : List ConversationSummary),
      x ∈ l.foldl insertDesc acc ↔ x ∈ acc ∨ x ∈ l by
    have := h l []
    simpa [sortConversations] using this
  intro l
  induction l with
  | nil => simp
  | cons c rest ih =>
      intro acc
      show x ∈ rest.foldl insertDesc (insertDesc acc c) ↔ _
      rw [ih (insertDesc acc c)]
      rw [mem_insertDesc]
      simp [List.mem_cons]
      tauto

/-! ## Project-name fallback (C10) -/

theorem processSessionFile_project_ne (cache : CacheMap) (projectsDir : String)
    (pd : ProjectEnt) (f : FileEnt) (st : FileStat)
    (hcache : ∀ c, mapGet cache (sessionIdOfName f.name) = some c → c.project ≠ "")
    (hn : pd.name ≠ "") :
    (processSessionFile cache projectsDir pd f st).project ≠ "" := by
  unfold processSessionFile
  dsimp only
  cases h : mapGet cache (sessionIdOfName f.name) with
  | none =>
      unfold extractedEntry
      dsimp only
      split
      next h1 => exact h1
      next => exact hn
  | some c =>
      dsimp only
      split
      next => exact hcache c h
      next =>
        unfold extractedEntry
        dsimp only
        split
        next h1 => exact h1
        next =>
          split
          next h2 => exact h2
          next => exact hn

theorem scanFiles_project_ne (cache : CacheMap) (projectsDir : String) (pd : ProjectEnt)
    (files : List FileEnt) (acc : CacheMap)
    (hcache : ∀ k c, mapGet cache k = some c → c.project ≠ "")
    (hn : pd.name ≠ "")
    (hacc : ∀ kv ∈ acc, (kv : String × CachedConversation).2.project ≠ "") :
    ∀ kv ∈ scanFiles cache projectsDir pd acc files, kv.2.project ≠ "" := by
  induction files generalizing acc with
  | nil => exact hacc
  | cons f rest ih =>
      unfold scanFiles
      rw [List.foldl_cons]
      show ∀ kv ∈ scanFiles cache projectsDir pd _ rest, kv.2.project ≠ ""
      split
      next => exact ih acc hacc
      next =>
        split
        next => exact ih acc hacc
        next =>
          split
          next => exact ih acc hacc
          next st hst =>
            refine ih _ ?_
            intro kv hkv
            rcases mem_mapSet _ _ _ kv hkv with h1 | h1
            · rw [h1]
              exact processSessionFile_project_ne cache projectsDir pd f st
                (fun c => hcache (sessionIdOfName f.name) c) hn
            · exact hacc kv h1

theorem scanNextCache_project_ne (cache : CacheMap) (projectsDir : String)
    (dirs : List ProjectEnt)
    (hcache : ∀ k c, mapGet cache k = some c → c.project ≠ "")
    (hdirs : ∀ pd ∈ dirs, (pd : ProjectEnt).name ≠ "") :
    ∀ kv ∈ scanNextCache cache projectsDir dirs, kv.2.project ≠ "" := by
  suffices h : ∀ (dirs : List ProjectEnt) (acc : CacheMap),
      (∀ pd ∈ dirs, (pd : ProjectEnt).name ≠ "") →
      (∀ kv ∈ acc, (kv : String × CachedConversation).2.project ≠ "") →
      ∀ kv ∈ dirs.foldl
          (fun acc pd =>
            match pd.files with
            | none => acc
            | some files => scanFiles cache projectsDir pd acc files) acc,
        kv.2.project ≠ "" by
    exact h dirs [] hdirs (by simp)
  intro dirs
  induction dirs with
  | nil => intro acc _ hacc; exact hacc
  | cons pd rest ih =>
      intro acc hdirs' hacc
      rw [List.foldl_cons]
      refine ih _ (fun d hd => hdirs' d (List.mem_cons_of_mem _ hd)) ?_
      cases hf : pd.files with
      | none => simpa [hf] using hacc
      | some files =>
          simp only [hf]
          exact scanFiles_project_ne cache projectsDir pd files acc hcache
            (hdirs' pd (List.mem_cons_self _ _)) hacc

/-- C10: on the expensive path the summary's `project` is the extracted `cwd`
when non-empty, else the prior cached entry's project when one exists
(cache entries produced by scans always carry a non-empty project, the stated
invariant hypothesis), else the containing project directory's name; hence —
directory names being non-empty — every summary a scan produces has a
non-empty `project`, even when extraction returns an empty one. -/
theorem C10_project_fallback :
    (∀ (cache : CacheMap) (projectsDir : String) (pd : ProjectEnt) (f : FileEnt) (st : FileStat),
      (∀ c, mapGet cache (sessionIdOfName f.name) = some c → c.project ≠ "") →
      isFresh (mapGet cache (sessionIdOfName f.name)) (filePathOf projectsDir pd f.name) st
          = false →
      (processSessionFile cache projectsDir pd f st).project =
        (if (readSessionMetadata f.lines).1 ≠ "" then (readSessionMetadata f.lines).1
         else
           match mapGet cache (sessionIdOfName f.name) with
           | some c => c.project
           | none => pd.name)) ∧
    (∀ (projectsDir : String) (fs : ProjectsFS) (st0 : ScanState),
      (∀ kv ∈ st0.cache, (kv : String × CachedConversation).2.project ≠ "") →
      (∀ pd ∈ listProjectDirectories fs, (pd : ProjectEnt).name ≠ "") →
      ∀ s ∈ (refreshConversationCache projectsDir fs st0).2.1, s.project ≠ "") := by
  constructor
  · intro cache projectsDir pd f st hInv hF
    have hext : processSessionFile cache projectsDir pd f st =
        extractedEntry (mapGet cache (sessionIdOfName f.name)) projectsDir pd f st :=
      ((C1_freshness_gate cache projectsDir pd f st).2.2 hF).1
    rw [hext]
    unfold extractedEntry
    dsimp only
    cases h : mapGet cache (sessionIdOfName f.name) with
    | none => rfl
    | some c =>
        dsimp only
        rw [if_pos (hInv c h)]
  · intro projectsDir fs st0 hc hdirs s hs
    unfold refreshConversationCache at hs
    dsimp only at hs
    rw [mem_sortConversations] at hs
    rcases List.mem_map.mp hs with ⟨e, he, rfl⟩
    rcases List.mem_map.mp he with ⟨kv, hkv, rfl⟩
    have : kv.2.project ≠ "" := by
      refine scanNextCache_project_ne st0.cache projectsDir (listProjectDirectories fs)
        ?_ hdirs kv hkv
      intro k c hkc
      exact hc (k, c) (mapGet_mem st0.cache k c hkc)
    exact this

theorem C10_project_fallback_witness :
    ((⟨"emp", "dirname", "", 7⟩ : ConversationSummary) ∈
      (refreshConversationCache "/cp" wEmptyFS ⟨[], ""⟩).2.1) ∧
    (⟨"emp", "dirname", "", 7⟩ : ConversationSummary).project ≠ "" :=
  ⟨by decide,
   C10_project_fallback.2 "/cp" wEmptyFS ⟨[], ""⟩ (by simp) (by decide)
     ⟨"emp", "dirname", "", 7⟩ (by decide)⟩

/-! ## Failure isolation (C8) -/

theorem processSessionFile_name_eq (cache : CacheMap) (projectsDir : String)
    (pd pd' : ProjectEnt) (f : FileEnt) (st : FileStat) (h : pd'.name = pd.name) :
    processSessionFile cache projectsDir pd' f st =
      processSessionFile cache projectsDir pd f st := by
  unfold processSessionFile extractedEntry filePathOf
  rw [h]

theorem scanFiles_single_name_eq (cache : CacheMap) (projectsDir : String)
    (pd pd' : ProjectEnt) (f : FileEnt) (acc : CacheMap) (h : pd'.name = pd.name) :
    scanFiles cache projectsDir pd' acc [f] = scanFiles cache projectsDir pd acc [f] := by
  unfold scanFiles
  simp only [List.foldl_cons, List.foldl_nil]
  split
  next => rfl
  next =>
    split
    next => rfl
    next =>
      cases hst : f.stat with
      | none => rfl
      | some st =>
          dsimp only
          rw [processSessionFile_name_eq cache projectsDir pd pd' f st h]

theorem scanFiles_cons (cache : CacheMap) (projectsDir : String) (pd : ProjectEnt)
    (f : FileEnt) (rest : List FileEnt) (acc : CacheMap) :
    scanFiles cache projectsDir pd acc (f :: rest) =
      scanFiles cache projectsDir pd (scanFiles cache projectsDir pd acc [f]) rest := rfl

theorem scanFiles_single_statNone (cache : CacheMap) (projectsDir : String)
    (pd : ProjectEnt) (f : FileEnt) (acc : CacheMap) (hst : f.stat = none) :
    scanFiles cache projectsDir pd acc [f] = acc := by
  unfold scanFiles
  simp only [List.foldl_cons, List.foldl_nil]
  split
  next => rfl
  next =>
    split
    next => rfl
    next => rw [hst]

theorem scanFiles_prune (cache : CacheMap) (projectsDir : String) (pd pd' : ProjectEnt)
    (h : pd'.name = pd.name) (files : List FileEnt) (acc : CacheMap) :
    scanFiles cache projectsDir pd' acc (pruneFileEnts files) =
      scanFiles cache projectsDir pd acc files := by
  induction files generalizing acc with
  | nil => rfl
  | cons f rest ih =>
      rw [show pruneFileEnts (f :: rest)
          = if f.stat.isSome then f :: pruneFileEnts rest else pruneFileEnts rest from
        List.filter_cons]
      cases hst : f.stat with
      | none =>
          simp only [Option.isSome_none, Bool.false_eq_true, if_false]
          rw [ih acc, scanFiles_cons, scanFiles_single_statNone cache projectsDir pd f acc hst]
      | some st =>
          simp only [Option.isSome_some, if_true]
          rw [scanFiles_cons cache projectsDir pd' f (pruneFileEnts rest) acc]
          rw [scanFiles_single_name_eq cache projectsDir pd pd' f acc h]
          rw [ih (scanFiles cache projectsDir pd acc [f])]
          rfl

theorem scanDirStep_filesNone (cache : CacheMap) (projectsDir : String) (e : ProjectEnt)
    (acc : CacheMap) (hf : e.files = none) :
    (match e.files with
     | none => acc
     | some files => scanFiles cache projectsDir e acc files) = acc := by
  rw [hf]

theorem scanDirStep_filesSome (cache : CacheMap) (projectsDir : String) (e : ProjectEnt)
    (acc : CacheMap) (fl : List FileEnt) (hf : e.files = some fl) :
    (match e.files with
     | none => acc
     | some files => scanFiles cache projectsDir e acc files)
      = scanFiles cache projectsDir e acc fl := by
  rw [hf]

theorem scanNextCache_prune (cache : CacheMap) (projectsDir : String) (fs : ProjectsFS) :
    scanNextCache cache projectsDir (listProjectDirectories (pruneFS fs)) =
      scanNextCache cache projectsDir (listProjectDirectories fs) := by
  cases hr : fs.root with
  | none => simp [pruneFS, listProjectDirectories, hr]
  | some es =>
      unfold scanNextCache
      show (listProjectDirectories (pruneFS fs)).foldl _ [] = _
      rw [show listProjectDirectories (pruneFS fs) =
          (((es.filter (fun e => e.files.isSome)).map
              (fun e => { e with files := e.files.map pruneFileEnts })).filter
            (fun e => e.isDirectory)) from by simp [pruneFS, listProjectDirectories, hr]]
      rw [show listProjectDirectories fs = es.filter (fun e => e.isDirectory) from by
        simp [listProjectDirectories, hr]]
      clear hr
      suffices hgen : ∀ (es : List ProjectEnt) (acc : CacheMap),
          ((((es.filter (fun e => e.files.isSome)).map
              (fun e => { e with files := e.files.map pruneFileEnts })).filter
            (fun e => e.isDirectory)).foldl
            (fun acc pd =>
              match pd.files with
              | none => acc
              | some files => scanFiles cache projectsDir pd acc files) acc)
          = ((es.filter (fun e => e.isDirectory)).foldl
              (fun acc pd =>
                match pd.files with
                | none => acc
                | some files => scanFiles cache projectsDir pd acc files) acc) from
        hgen es []
      intro es
      induction es with
      | nil => intro acc; rfl
      | cons e rest ih =>
          intro acc
          rw [List.filter_cons, List.filter_cons]
          cases hf : e.files with
          | none =>
              simp only [Option.isSome_none, Bool.false_eq_true, if_false]
              cases hd : e.isDirectory with
              | false =>
                  simp only [Bool.false_eq_true, if_false]
                  exact ih acc
              | true =>
                  simp only [if_true, List.foldl_cons]
                  rw [scanDirStep_filesNone cache projectsDir e acc hf]
                  exact ih acc
          | some fl =>
              simp only [Option.isSome_some, if_true, List.map_cons, List.filter_cons]
              cases hd : e.isDirectory with
              | false =>
                  simp only [Bool.false_eq_true, if_false]
                  exact ih acc
              | true =>
                  simp only [if_true, List.foldl_cons]
                  rw [hf]
                  rw [show Option.map pruneFileEnts (some fl) = some (pruneFileEnts fl) from
                    rfl]
                  dsimp only
                  rw [scanFiles_prune cache projectsDir e
                    ⟨e.name, true, some (pruneFileEnts fl)⟩ rfl fl acc]
                  exact ih (scanFiles cache projectsDir e acc fl)

/-- C8: a failure enumerating one project directory (`readdir` throwing) or
statting one session file affects only that unit: the scan over the real tree
equals the scan over the tree with exactly those failed units removed -- it
always completes and returns the snapshot of the remaining items, and the
embedding is total, so no error propagates to the caller. -/
theorem C8_failure_isolation (projectsDir : String) (fs : ProjectsFS) (st : ScanState) :
    refreshConversationCache projectsDir fs st =
      refreshConversationCache projectsDir (pruneFS fs) st ∧
    scanFailures (pruneFS fs) = false := by
  constructor
  · simp only [refreshConversationCache]
    rw [scanNextCache_prune]
  · cases hr : fs.root with
    | none => simp [scanFailures, pruneFS, hr]
    | some es =>
        have hp : pruneFS fs = ⟨some ((es.filter (fun e => e.files.isSome)).map
            (fun e => { e with files := e.files.map pruneFileEnts }))⟩ := by
          simp [pruneFS, hr]
        rw [hp]
        unfold scanFailures
        dsimp only
        rw [List.any_eq_false]
        intro e' he'
        rcases List.mem_map.mp he' with ⟨e, he, rfl⟩
        have hsome : e.files.isSome := by
          have := List.mem_filter.mp he
          simpa using this.2
        dsimp only
        cases hf : e.files with
        | none => rw [hf] at hsome; simp at hsome
        | some fl =>
            rw [show Option.map pruneFileEnts (some fl) = some (pruneFileEnts fl) from rfl]
            have hall : (pruneFileEnts fl).any (fun f => f.stat.isNone) = false := by
              rw [List.any_eq_false]
              intro f hfmem
              have h2 : f.stat.isSome = true := by
                simpa using (List.mem_filter.mp hfmem).2
              cases hstat : f.stat with
              | none => rw [hstat] at h2; simp at h2
              | some v => simp [hstat]
            simp [hall]

/-! ## Ordered-map laws (proof support for idempotence, C5) -/

theorem mapGet_mapSet {α : Type} (m : List (String × α)) (k q : String) (v : α) :
    mapGet (mapSet m k v) q = if k = q then some v else mapGet m q := by
  induction m with
  | nil =>
      show (if k = q then some v else none) = if k = q then some v else none
      rfl
  | cons kv rest ih =>
      obtain ⟨k', v'⟩ := kv
      show mapGet (if k' = k then (k', v) :: rest else (k', v') :: mapSet rest k v) q = _
      by_cases hk : k' = k
      · subst hk
        rw [if_pos rfl]
        show (if k' = q then some v else mapGet rest q) = _
        by_cases hq : k' = q
        · rw [if_pos hq, if_pos hq]
        · rw [if_neg hq, if_neg hq]
          show _ = if k' = q then some v' else mapGet rest q
          rw [if_neg hq]
      · rw [if_neg hk]
        show (if k' = q then some v' else mapGet (mapSet rest k v) q) = _
        by_cases hq : k' = q
        · rw [if_pos hq]
          have hkq : ¬(k = q) := fun h => hk (h ▸ hq.symm ▸ rfl)
          rw [if_neg hkq]
          show _ = if k' = q then some v' else mapGet rest q
          rw [if_pos hq]
        · rw [if_neg hq, ih]
          by_cases hkq : k = q
          · rw [if_pos hkq, if_pos hkq]
          · rw [if_neg hkq, if_neg hkq]
            show _ = if k' = q then some v' else mapGet rest q
            rw [if_neg hq]

theorem mapSet_keys {α : Type} (m : List (String × α)) (k : String) (v : α) :
    (mapSet m k v).map Prod.fst = keyInsert (m.map Prod.fst) k := by
  induction m with
  | nil => simp [mapSet, keyInsert]
  | cons kv rest ih =>
      obtain ⟨k', v'⟩ := kv
      show (if k' = k then (k', v) :: rest else (k', v') :: mapSet rest k v).map Prod.fst = _
      by_cases hk : k' = k
      · subst hk
        rw [if_pos rfl]
        unfold keyInsert
        rw [if_pos (by simp)]
        rfl
      · rw [if_neg hk]
        show k' :: (mapSet rest k v).map Prod.fst = _
        rw [ih]
        unfold keyInsert
        by_cases hmem : k ∈ rest.map Prod.fst
        · rw [if_pos hmem, if_pos (by simp [hmem])]
          rfl
        · have hnm : ¬ k ∈ List.map Prod.fst ((k', v') :: rest) := by
            simp only [List.map_cons, List.mem_cons]
            push_neg
            exact ⟨fun h => hk h.symm, hmem⟩
          rw [if_neg hmem, if_neg hnm]
          rfl

theorem keyInsert_nodup (ks : List String) (k : String) (h : ks.Nodup) :
    (keyInsert ks k).Nodup := by
  unfold keyInsert
  by_cases hmem : k ∈ ks
  · rw [if_pos hmem]; exact h
  · rw [if_neg hmem]
    simpa [List.nodup_append] using ⟨h, hmem⟩

theorem foldlSet_keys {α : Type} (l : List (String × α)) (acc : List (String × α)) :
    ((l.foldl (fun acc kv => mapSet acc kv.1 kv.2) acc).map Prod.fst) =
      (l.map Prod.fst).foldl keyInsert (acc.map Prod.fst) := by
  induction l generalizing acc with
  | nil => rfl
  | cons kv rest ih =>
      rw [List.foldl_cons, List.map_cons, List.foldl_cons, ih, mapSet_keys]

theorem foldlKeyInsert_nodup (kvs : List String) (ks : List String) (h : ks.Nodup) :
    (kvs.foldl keyInsert ks).Nodup := by
  induction kvs generalizing ks with
  | nil => exact h
  | cons k rest ih => exact ih _ (keyInsert_nodup ks k h)

theorem buildMap_keys (l : List (String × CachedConversation)) :
    (buildMap l).map Prod.fst = (l.map Prod.fst).foldl keyInsert [] := by
  unfold buildMap
  simpa using foldlSet_keys l []

theorem buildMap_nodup (l : List (String × CachedConversation)) :
    ((buildMap l).map Prod.fst).Nodup := by
  rw [buildMap_keys]
  exact foldlKeyInsert_nodup _ [] (by simp)

theorem mapGet_eq_none_of_not_mem {α : Type} (m : List (String × α)) (k : String)
    (h : k ∉ m.map Prod.fst) : mapGet m k = none := by
  induction m with
  | nil => rfl
  | cons kv rest ih =>
      obtain ⟨k', v'⟩ := kv
      show (if k' = k then some v' else mapGet rest k) = none
      rw [if_neg (by simp at h; exact fun he => h.1 he.symm)]
      exact ih (by simp at h; simpa using h.2)

theorem mapExt {α : Type} (m1 m2 : List (String × α))
    (hkeys : m1.map Prod.fst = m2.map Prod.fst)
    (hnd : (m1.map Prod.fst).Nodup)
    (hget : ∀ k, mapGet m1 k = mapGet m2 k) : m1 = m2 := by
  induction m1 generalizing m2 with
  | nil =>
      cases m2 with
      | nil => rfl
      | cons kv rest => simp at hkeys
  | cons kv rest ih =>
      obtain ⟨k, v⟩ := kv
      cases m2 with
      | nil => simp at hkeys
      | cons kv2 rest2 =>
          obtain ⟨k2, v2⟩ := kv2
          simp only [List.map_cons, List.cons.injEq] at hkeys
          obtain ⟨hk, hrest⟩ := hkeys
          subst hk
          have hv : v = v2 := by
            have := hget k
            rw [show mapGet ((k, v) :: rest) k = some v from by
              show (if k = k then some v else _) = _
              rw [if_pos rfl]] at this
            rw [show mapGet ((k, v2) :: rest2) k = some v2 from by
              show (if k = k then some v2 else _) = _
              rw [if_pos rfl]] at this
            exact Option.some.inj this
          subst hv
          have hnotmem : k ∉ rest.map Prod.fst := by
            simp only [List.map_cons, List.nodup_cons] at hnd
            exact hnd.1
          have hnotmem2 : k ∉ rest2.map Prod.fst := hrest ▸ hnotmem
          have : rest = rest2 := by
            refine ih rest2 hrest ?_ ?_
            · simp only [List.map_cons, List.nodup_cons] at hnd
              exact hnd.2
            · intro q
              by_cases hq : k = q
              · subst hq
                rw [mapGet_eq_none_of_not_mem rest k hnotmem,
                  mapGet_eq_none_of_not_mem rest2 k hnotmem2]
              · have := hget q
                rw [show mapGet ((k, v) :: rest) q = mapGet rest q from by
                  show (if k = q then some v else _) = _
                  rw [if_neg hq]] at this
                rw [show mapGet ((k, v) :: rest2) q = mapGet rest2 q from by
                  show (if k = q then some v else _) = _
                  rw [if_neg hq]] at this
                exact this
          rw [this]

theorem foldlSet_get (l : List (String × CachedConversation)) (acc : CacheMap) (k : String) :
    mapGet (l.foldl (fun acc kv => mapSet acc kv.1 kv.2) acc) k =
      (match lastVal l k with
       | some v => some v
       | none => mapGet acc k) := by
  induction l generalizing acc with
  | nil => rfl
  | cons kv l ih =>
      rw [List.foldl_cons, ih (mapSet acc kv.1 kv.2)]
      show _ = (match lastVal (kv :: l) k with
        | some v => some v
        | none => mapGet acc k)
      rw [show lastVal (kv :: l) k =
          (match lastVal l k with
           | some v => some v
           | none => if kv.1 = k then some kv.2 else none) from rfl]
      cases h : lastVal l k with
      | some v => rfl
      | none =>
          dsimp only
          rw [mapGet_mapSet]
          by_cases hk : kv.1 = k
          · rw [if_pos hk, if_pos hk]
          · rw [if_neg hk, if_neg hk]

theorem buildMap_get (l : List (String × CachedConversation)) (k : String) :
    mapGet (buildMap l) k = lastVal l k := by
  unfold buildMap
  rw [foldlSet_get]
  cases h : lastVal l k <;> rfl

theorem lastVal_append (l1 l2 : List (String × CachedConversation)) (k : String) :
    lastVal (l1 ++ l2) k =
      (match lastVal l2 k with
       | some v => some v
       | none => lastVal l1 k) := by
  induction l1 with
  | nil =>
      rw [List.nil_append]
      cases h : lastVal l2 k <;> rfl
  | cons kv rest ih =>
      rw [List.cons_append]
      show (match lastVal (rest ++ l2) k with
        | some v => some v
        | none => if kv.1 = k then some kv.2 else none) = _
      rw [ih]
      cases h : lastVal l2 k with
      | some v => rfl
      | none => rfl

theorem lastVal_cons (kv : String × CachedConversation)
    (l : List (String × CachedConversation)) (k : String) :
    lastVal (kv :: l) k =
      (match lastVal l k with
       | some v => some v
       | none => if kv.1 = k then some kv.2 else none) := rfl

/-! ## Per-file scan laws (proof support for idempotence, C5) -/

theorem processSessionFile_fields (cache : CacheMap) (projectsDir : String)
    (pd : ProjectEnt) (f : FileEnt) (st : FileStat) :
    (processSessionFile cache projectsDir pd f st).filePath = filePathOf projectsDir pd f.name ∧
    (processSessionFile cache projectsDir pd f st).mtimeMs = st.mtimeMs ∧
    (processSessionFile cache projectsDir pd f st).size = st.size ∧
    (processSessionFile cache projectsDir pd f st).updatedAt = st.mtimeMs := by
  unfold processSessionFile
  dsimp only
  cases h : mapGet cache (sessionIdOfName f.name) with
  | none => exact ⟨rfl, rfl, rfl, rfl⟩
  | some c =>
      dsimp only
      by_cases hc : c.filePath = filePathOf projectsDir pd f.name ∧
          c.mtimeMs = st.mtimeMs ∧ c.size = st.size
      · rw [if_pos hc]
        exact ⟨hc.1, hc.2.1, hc.2.2, rfl⟩
      · rw [if_neg hc]
        exact ⟨rfl, rfl, rfl, rfl⟩

theorem processSessionFile_reuse (cache : CacheMap) (projectsDir : String)
    (pd : ProjectEnt) (f : FileEnt) (st : FileStat) (e : CachedConversation)
    (hget : mapGet cache (sessionIdOfName f.name) = some e)
    (h1 : e.filePath = filePathOf projectsDir pd f.name)
    (h2 : e.mtimeMs = st.mtimeMs) (h3 : e.size = st.size) (h4 : e.updatedAt = st.mtimeMs) :
    processSessionFile cache projectsDir pd f st = e := by
  unfold processSessionFile
  dsimp only
  rw [hget]
  dsimp only
  rw [if_pos ⟨h1, h2, h3⟩]
  cases e
  simp_all

theorem scanFiles_occ (cache : CacheMap) (projectsDir : String) (pd : ProjectEnt)
    (files : List FileEnt) (acc : CacheMap) :
    scanFiles cache projectsDir pd acc files =
      (files.filterMap (fileOcc pd)).foldl
        (fun acc o =>
          mapSet acc (occEntry cache projectsDir o).1 (occEntry cache projectsDir o).2)
        acc := by
  induction files generalizing acc with
  | nil => rfl
  | cons f rest ih =>
      rw [List.filterMap_cons]
      unfold scanFiles
      rw [List.foldl_cons]
      by_cases h1 : f.isFile = false
      · rw [if_pos h1]
        rw [show fileOcc pd f = none from by unfold fileOcc; rw [if_pos h1]]
        exact ih acc
      · rw [if_neg h1]
        by_cases h2 : strEndsWith f.name ".jsonl" = false
        · rw [if_pos h2]
          rw [show fileOcc pd f = none from by unfold fileOcc; rw [if_neg h1, if_pos h2]]
          exact ih acc
        · rw [if_neg h2]
          cases hst : f.stat with
          | none =>
              rw [show fileOcc pd f = none from by
                unfold fileOcc; rw [if_neg h1, if_neg h2, hst]]
              exact ih acc
          | some st =>
              rw [show fileOcc pd f = some (pd, f, st) from by
                unfold fileOcc; rw [if_neg h1, if_neg h2, hst]]
              dsimp only
              rw [List.foldl_cons]
              exact ih (mapSet acc (sessionIdOfName f.name)
                (processSessionFile cache projectsDir pd f st))

theorem scanNextCache_occ (cache : CacheMap) (projectsDir : String)
    (dirs : List ProjectEnt) :
    scanNextCache cache projectsDir dirs =
      buildMap ((occList dirs).map (occEntry cache projectsDir)) := by
  suffices hgen : ∀ (dirs : List ProjectEnt) (acc : CacheMap),
      dirs.foldl
        (fun acc pd =>
          match pd.files with
          | none => acc
          | some files => scanFiles cache projectsDir pd acc files) acc =
      ((occList dirs).map (occEntry cache projectsDir)).foldl
        (fun acc kv => mapSet acc kv.1 kv.2) acc from hgen dirs []
  intro dirs
  induction dirs with
  | nil => intro acc; rfl
  | cons pd rest ih =>
      intro acc
      rw [List.foldl_cons]
      rw [show occList (pd :: rest) =
          (match pd.files with
           | none => []
           | some files => files.filterMap (fileOcc pd)) ++ occList rest from rfl]
      rw [List.map_append, List.foldl_append]
      cases hf : pd.files with
      | none =>
          dsimp only
          exact ih acc
      | some files =>
          dsimp only
          rw [ih (scanFiles cache projectsDir pd acc files)]
          congr 1
          rw [scanFiles_occ cache projectsDir pd files acc, List.foldl_map]

theorem lastVal_entries_stable (c0 c1 : CacheMap) (projectsDir : String)
    (full : List (ProjectEnt × FileEnt × FileStat))
    (hc1 : ∀ q, mapGet c1 q = lastVal (full.map (occEntry c0 projectsDir)) q) :
    ∀ (pre suf : List (ProjectEnt × FileEnt × FileStat)), full = pre ++ suf →
    ∀ k, lastVal (suf.map (occEntry c1 projectsDir)) k
        = lastVal (suf.map (occEntry c0 projectsDir)) k := by
  intro pre suf
  induction suf generalizing pre with
  | nil => intro _ k; rfl
  | cons o t ih =>
      intro hfull k
      have hih := ih (pre ++ [o]) (by rw [hfull, List.append_assoc]; rfl) k
      rw [List.map_cons, List.map_cons, lastVal_cons, lastVal_cons, hih]
      cases h : lastVal (t.map (occEntry c0 projectsDir)) k with
      | some v => rfl
      | none =>
          dsimp only
          rw [show (occEntry c1 projectsDir o).1 = (occEntry c0 projectsDir o).1 from rfl]
          by_cases hk : (occEntry c0 projectsDir o).1 = k
          · rw [if_pos hk, if_pos hk]
            have hfields := processSessionFile_fields c0 projectsDir o.1 o.2.1 o.2.2
            have hget : mapGet c1 (sessionIdOfName o.2.1.name) =
                some (processSessionFile c0 projectsDir o.1 o.2.1 o.2.2) := by
              rw [show sessionIdOfName o.2.1.name = k from hk]
              rw [hc1 k, hfull, List.map_append, lastVal_append, List.map_cons,
                lastVal_cons, h]
              dsimp only
              rw [if_pos hk]
              rfl
            have hre := processSessionFile_reuse c1 projectsDir o.1 o.2.1 o.2.2
              (processSessionFile c0 projectsDir o.1 o.2.1 o.2.2) hget
              hfields.1 hfields.2.1 hfields.2.2.1 hfields.2.2.2
            exact congrArg some hre
          · rw [if_neg hk, if_neg hk]

theorem scanNextCache_idem (cache : CacheMap) (projectsDir : String)
    (dirs : List ProjectEnt) :
    scanNextCache (scanNextCache cache projectsDir dirs) projectsDir dirs =
      scanNextCache cache projectsDir dirs := by
  rw [scanNextCache_occ cache projectsDir dirs]
  rw [scanNextCache_occ (buildMap ((occList dirs).map (occEntry cache projectsDir)))
    projectsDir dirs]
  refine mapExt _ _ ?_ ?_ ?_
  · rw [buildMap_keys, buildMap_keys]
    congr 1
    rw [List.map_map, List.map_map]
    rfl
  · exact buildMap_nodup _
  · intro k
    rw [buildMap_get, buildMap_get]
    exact lastVal_entries_stable cache
      (buildMap ((occList dirs).map (occEntry cache projectsDir))) projectsDir
      (occList dirs) (fun q => buildMap_get _ q) [] (occList dirs) rfl k

/-! ## Idempotence of the refresh (C5) -/

/-- C5: with no filesystem change between them, two consecutive scans return
identical snapshots — the second scan finds every file fresh against the
cache the first one committed, rebuilds the very same cache (same entries,
same insertion order, even with duplicate session ids across directories),
and its snapshot fingerprint equals the one just committed, so the second
call reports `changed = false`. -/
theorem C5_refresh_idempotent (projectsDir : String) (fs : ProjectsFS) (st0 : ScanState) :
    (refreshConversationCache projectsDir fs
        (refreshConversationCache projectsDir fs st0).1).2.1 =
      (refreshConversationCache projectsDir fs st0).2.1 ∧
    (refreshConversationCache projectsDir fs
        (refreshConversationCache projectsDir fs st0).1).2.2 = false := by
  unfold refreshConversationCache
  dsimp only
  rw [scanNextCache_idem]
  exact ⟨rfl, by simp⟩

end CCMobile
